import Mathlib

/-!
Verification of the API-extraction engine in `tools/stronghold/src/api/ast.py`.

The Python module walks a parsed syntax tree and produces
 * a mapping from qualified name to raw callable definition (`extract_raw`),
 * a mapping from qualified name to structured signature (`extract`),
 * a mapping from qualified name to class descriptor (`extract_classes`).

We embed the relevant fragment of the Python abstract syntax (expressions,
assignment targets, statements) and translate the three extraction routines
and the parameter classifier `_function_def_to_parameters` into Lean, then
prove the specified properties about them.

Python dictionaries are modelled as association lists recording each write in
order; `dictGet` returns the value of the last write for a key, which agrees
with dictionary lookup (later writes to the same key overwrite earlier ones).
-/

namespace Api

/-- Syntactic expressions, restricted to the shapes the extractor inspects:
bare identifiers (`ast.Name`), attribute accesses (`ast.Attribute`, keeping
the base expression and the trailing member name), calls and constants.
Decorators, annotations and default expressions are expressions. -/
inductive Expr where
  | name (id : String)
  | attrAccess (value : Expr) (attr : String)
  | call (func : Expr)
  | constant (text : String)
deriving DecidableEq

/-- An assignment target: either a simple name (`ast.Name`) or any other
target form (attribute, subscript, tuple/list destructuring, starred), which
the extractor uniformly ignores via its `isinstance(target, ast.Name)` test. -/
inductive Target where
  | name (id : String)
  | other
deriving DecidableEq

/-- One formal parameter (`ast.arg`): its name, optional annotation
expression `ann`, and source line. -/
structure Arg where
  arg : String
  ann : Option Expr
  lineno : Nat
deriving DecidableEq

/-- The `ast.arguments` record of a callable definition: positional-only
parameters, positional-or-keyword parameters, variadic positional collector,
keyword-only parameters with their parallel default slots, variadic keyword
collector, and the default expressions aligned to the tail of the combined
positional lists. -/
structure Arguments where
  posonlyargs : List Arg
  args : List Arg
  vararg : Option Arg
  kwonlyargs : List Arg
  kw_defaults : List (Option Expr)
  kwarg : Option Arg
  defaults : List Expr
deriving DecidableEq

mutual
/-- An `ast.FunctionDef` node: name, arguments, body, decorators, line. -/
inductive FunctionDef where
  | mk (name : String) (fnArgs : Arguments) (body : List Stmt)
      (decorator_list : List Expr) (lineno : Nat)

/-- An `ast.ClassDef` node: name, body, decorators, line. -/
inductive ClassDef where
  | mk (name : String) (body : List Stmt) (decorator_list : List Expr) (lineno : Nat)

/-- The statement forms relevant to the extractor: function and class
definitions, annotated assignments (`ast.AnnAssign`), plain assignments
(`ast.Assign`), conditionals (whose branches a generic visit descends into),
expression statements, returns and `pass`. -/
inductive Stmt where
  | functionDef (f : FunctionDef)
  | classDef (c : ClassDef)
  | annAssign (target : Target) (ann : Expr) (value : Option Expr) (lineno : Nat)
  | assign (targets : List Target) (value : Expr) (lineno : Nat)
  | ifStmt (test : Expr) (body : List Stmt) (orelse : List Stmt)
  | exprStmt (e : Expr)
  | returnStmt (value : Option Expr)
  | passStmt
end

/-- Name of a function definition node. -/
def FunctionDef.name : FunctionDef → String
  | .mk n _ _ _ _ => n

/-- Arguments record of a function definition node. -/
def FunctionDef.args : FunctionDef → Arguments
  | .mk _ a _ _ _ => a

/-- Body of a function definition node. -/
def FunctionDef.body : FunctionDef → List Stmt
  | .mk _ _ b _ _ => b

/-- Decorator list of a function definition node. -/
def FunctionDef.decorator_list : FunctionDef → List Expr
  | .mk _ _ _ d _ => d

/-- Source line of a function definition node. -/
def FunctionDef.lineno : FunctionDef → Nat
  | .mk _ _ _ _ l => l

/-- Name of a class definition node. -/
def ClassDef.name : ClassDef → String
  | .mk n _ _ _ => n

/-- Body of a class definition node. -/
def ClassDef.body : ClassDef → List Stmt
  | .mk _ b _ _ => b

/-- Decorator list of a class definition node. -/
def ClassDef.decorator_list : ClassDef → List Expr
  | .mk _ _ d _ => d

/-- Source line of a class definition node. -/
def ClassDef.lineno : ClassDef → Nat
  | .mk _ _ _ l => l

/-- A parsed module: its top-level statement list. -/
structure Module where
  body : List Stmt

/-- The structured parameter descriptor `api.Parameter`; `ty` is the
`type_annotation` field, the descriptor of the syntactic annotation. -/
structure Parameter where
  name : String
  positional : Bool
  keyword : Bool
  required : Bool
  line : Nat
  ty : Option Expr
deriving DecidableEq

/-- The structured signature `api.Parameters`. -/
structure Parameters where
  parameters : List Parameter
  variadic_args : Bool
  variadic_kwargs : Bool
  line : Nat
deriving DecidableEq

/-- The class-field descriptor `api.Field`; `ty` is its `type_annotation`. -/
structure Field where
  name : String
  required : Bool
  line : Nat
  ty : Option Expr
deriving DecidableEq

/-- The class descriptor `api.Class`. -/
structure Class where
  fields : List Field
  line : Nat
  dataclass : Bool
deriving DecidableEq

/-- Modelled from the spec: the external collaborator `serialize_type`
(`api.types.annotation_to_dataclass` in the source, which is not under
`src/`), a pure conversion from an optional syntactic annotation expression
to an optional portable type descriptor. We model the descriptor as the
annotation expression itself; no claim depends on its internal shape. -/
def annToDesc (a : Option Expr) : Option Expr := a

/-- Python's `str.startswith`: the character sequence of `p` is a prefix of
the character sequence of `s`. -/
def startswith (s p : String) : Bool := p.data.isPrefixOf s.data

/-- Dictionary lookup on the write-list model: the value of the last write
for the key, mirroring overwriting assignment into a Python dict. -/
def dictGet {α : Type} (m : List (String × α)) (k : String) : Option α :=
  (m.reverse.find? (fun p => p.1 == k)).map (fun p => p.2)

/-- Qualified-name construction: context joined with a dot separator,
`".".join(...)` in the source. -/
def dotJoin (parts : List String) : String := String.intercalate (".") parts

/-- The two positional comprehensions of `_function_def_to_parameters`:
`for i, arg in enumerate(list, start)` producing one `api.Parameter` per
argument, required exactly when its running index is below `num_required`. -/
def posParams (start num_required : Nat) (positional keyword : Bool) :
    List Arg → List Parameter
  | [] => []
  | a :: rest =>
    { name := a.arg, positional := positional, keyword := keyword,
      required := decide (start < num_required), line := a.lineno,
      ty := annToDesc a.ann } :: posParams (start + 1) num_required positional keyword rest

/-- The keyword-only comprehension of `_function_def_to_parameters`: one
`api.Parameter` per keyword-only argument, required exactly when the parallel
default slot `kw_defaults[i]` is `None` (absent). -/
def kwonlyParamsOf : List Arg → List (Option Expr) → List Parameter
  | a :: rest, d :: ds =>
    { name := a.arg, positional := false, keyword := true,
      required := d.isNone, line := a.lineno,
      ty := annToDesc a.ann } :: kwonlyParamsOf rest ds
  | _, _ => []

/-- Translation of `_function_def_to_parameters`. The two `assert`
statements of the source become the two guards: a failing assertion is a
fatal failure of the extraction call, modelled as `none`. -/
def function_def_to_parameters (f : FunctionDef) : Option Parameters :=
  let a := f.args
  if a.posonlyargs.length + a.args.length < a.defaults.length then none
  else
    let num_required := a.posonlyargs.length + a.args.length - a.defaults.length
    if a.kwonlyargs.length = a.kw_defaults.length then
      some { parameters :=
               posParams 0 num_required true false a.posonlyargs
                 ++ posParams a.posonlyargs.length num_required true true a.args
                 ++ kwonlyParamsOf a.kwonlyargs a.kw_defaults,
             variadic_args := a.vararg.isSome,
             variadic_kwargs := a.kwarg.isSome,
             line := f.lineno }
    else none

mutual
/-- One visit step of `_ContextualNodeVisitor`: a function definition is
recorded under its qualified name and its body is not entered; a class
definition is descended into with its name pushed onto a fresh context; a
conditional is descended into generically; other statements contain no
nested statements. -/
def cnvVisit (ctx : List String) (out : List (String × FunctionDef)) :
    Stmt → List (String × FunctionDef)
  | .functionDef f => out ++ [(dotJoin (ctx ++ [f.name]), f)]
  | .classDef (.mk n body _ _) => cnvVisitList (ctx ++ [n]) out body
  | .ifStmt _ body orelse => cnvVisitList ctx (cnvVisitList ctx out body) orelse
  | _ => out
  termination_by structural s => s

/-- Visiting a statement list in order, threading the output accumulator. -/
def cnvVisitList (ctx : List String) (out : List (String × FunctionDef)) :
    List Stmt → List (String × FunctionDef)
  | [] => out
  | s :: rest => cnvVisitList ctx (cnvVisit ctx out s) rest
  termination_by structural l => l
end

/-- Translation of `extract_raw`: visit the module body with empty context
and an empty accumulator. -/
def extract_raw (m : Module) : List (String × FunctionDef) :=
  cnvVisitList [] [] m.body

/-- Translation of `extract`: classify every recorded raw callable; a fatal
classifier failure fails the whole extraction call. -/
def extract (m : Module) : Option (List (String × Parameters)) :=
  (extract_raw m).mapM
    (fun p => (function_def_to_parameters p.2).map (fun sig => (p.1, sig)))

/-- The dataclass-decorator test of `extract_classes.visit_ClassDef`: a bare
identifier whose name is the literal string dataclass, or an attribute
access whose trailing member name is that string. -/
def isDataclassDec (dec : Expr) : Bool :=
  (match dec with | .name id => id == "dataclass" | _ => false)
    || (match dec with | .attrAccess _ a => a == "dataclass" | _ => false)

/-- Field extraction from one direct class-body statement: an annotated
assignment with a simple-name target yields one field (required when no
value expression is present), a plain assignment yields one field per
simple-name target (never required, never typed); leading-underscore names
are skipped; every other statement yields nothing. -/
def stmtFields : Stmt → List Field
  | .annAssign target ann value lineno =>
    (match target with
     | .name field_name =>
       if startswith field_name ("_") then []
       else [{ name := field_name, required := value.isNone, line := lineno,
               ty := annToDesc (some ann) }]
     | .other => [])
  | .assign targets _ lineno =>
    targets.filterMap (fun t =>
      match t with
      | .name field_name =>
        if startswith field_name ("_") then none
        else some { name := field_name, required := false, line := lineno, ty := none }
      | .other => none)
  | _ => []

/-- The field-collection loop of `visit_ClassDef`: the direct statements of
the class body, in order, each contributing its fields. -/
def classBodyFields (body : List Stmt) : List Field :=
  body.foldl (fun acc s => acc ++ stmtFields s) []

/-- The `api.Class` record built by `visit_ClassDef` for one class node. -/
def classDefToClass (c : ClassDef) : Class :=
  { fields := classBodyFields c.body, line := c.lineno,
    dataclass := c.decorator_list.any isDataclassDec }

mutual
/-- One visit step of the `_ClassVisitor` of `extract_classes`: a class
definition is recorded under its qualified name and then descended into with
its name pushed onto a fresh context; a function definition is descended
into generically with the context unchanged (so classes inside function
bodies are still found); conditionals are descended into generically. -/
def cvVisit (ctx : List String) (out : List (String × Class)) :
    Stmt → List (String × Class)
  | .classDef (.mk n body decs l) =>
    cvVisitList (ctx ++ [n])
      (out ++ [(dotJoin (ctx ++ [n]), classDefToClass (.mk n body decs l))]) body
  | .functionDef (.mk _ _ body _ _) => cvVisitList ctx out body
  | .ifStmt _ body orelse => cvVisitList ctx (cvVisitList ctx out body) orelse
  | _ => out
  termination_by structural s => s

/-- Visiting a statement list in order for the class visitor. -/
def cvVisitList (ctx : List String) (out : List (String × Class)) :
    List Stmt → List (String × Class)
  | [] => out
  | s :: rest => cvVisitList ctx (cvVisit ctx out s) rest
  termination_by structural l => l
end

/-- Translation of `extract_classes`: visit the module body with empty
context and an empty accumulator. -/
def extract_classes (m : Module) : List (String × Class) :=
  cvVisitList [] [] m.body

/-- A function definition `d` occurs in statement `s` at a position reachable
without entering the body of any function: either `s` is the definition
itself, or the occurrence is inside a class body or a conditional branch.
This is the set of positions the callable extractor is specified to visit;
positions inside a function body are exactly the ones not covered. -/
inductive ExposedIn (d : FunctionDef) : Stmt → Prop where
  | self : ExposedIn d (.functionDef d)
  | inClassBody (c : ClassDef) (s : Stmt) :
      s ∈ c.body → ExposedIn d s → ExposedIn d (.classDef c)
  | inIfBody (t : Expr) (body orelse : List Stmt) (s : Stmt) :
      s ∈ body → ExposedIn d s → ExposedIn d (.ifStmt t body orelse)
  | inIfElse (t : Expr) (body orelse : List Stmt) (s : Stmt) :
      s ∈ orelse → ExposedIn d s → ExposedIn d (.ifStmt t body orelse)

/-- `ReachableDef rel d s`: the function definition `d` is reachable from
statement `s` by descending only into class bodies — either `s` is the
definition itself (`rel = []`), or `s` is a class definition and `d` is
reachable from one of its direct body statements, with the class name
prepended to the context path `rel`.  `rel` therefore lists exactly the
enclosing class names between `s` and `d`, outermost first. -/
inductive ReachableDef : List String → FunctionDef → Stmt → Prop where
  | self (d : FunctionDef) : ReachableDef [] d (.functionDef d)
  | inClassBody (c : ClassDef) (s : Stmt) (rel : List String) (d : FunctionDef) :
      s ∈ c.body → ReachableDef rel d s → ReachableDef (c.name :: rel) d (.classDef c)

/-- `ClassReachable rel c s`: the class definition `c` occurs in statement
`s` at a position the class visitor reaches; `rel` collects the names of the
enclosing class definitions along the path (outermost first).  Descent
through a function body or a conditional branch leaves `rel` unchanged:
only class names ever enter the context path. -/
inductive ClassReachable : List String → ClassDef → Stmt → Prop where
  | self (c : ClassDef) : ClassReachable [] c (.classDef c)
  | inClassBody (cOuter : ClassDef) (s : Stmt) (rel : List String) (c : ClassDef) :
      s ∈ cOuter.body → ClassReachable rel c s →
      ClassReachable (cOuter.name :: rel) c (.classDef cOuter)
  | inFunctionBody (f : FunctionDef) (s : Stmt) (rel : List String) (c : ClassDef) :
      s ∈ f.body → ClassReachable rel c s → ClassReachable rel c (.functionDef f)
  | inIfBody (t : Expr) (body orelse : List Stmt) (s : Stmt) (rel : List String) (c : ClassDef) :
      s ∈ body → ClassReachable rel c s → ClassReachable rel c (.ifStmt t body orelse)
  | inIfElse (t : Expr) (body orelse : List Stmt) (s : Stmt) (rel : List String) (c : ClassDef) :
      s ∈ orelse → ClassReachable rel c s → ClassReachable rel c (.ifStmt t body orelse)

/-- Specification-side description of a dataclass-marking decorator: a bare
identifier whose name is the literal string dataclass, or an attribute
access whose trailing member name is that string. -/
def DataclassShaped (dec : Expr) : Prop :=
  dec = Expr.name ("dataclass") ∨ ∃ e : Expr, dec = Expr.attrAccess e ("dataclass")

/-- Specification-side description for the duplicate-field claim: the
qualifying simple-name targets of one direct class-body statement, in
statement and target-list order, with leading-underscore names excluded. -/
def stmtFieldNames : Stmt → List String
  | .annAssign (.name id) _ _ _ => if startswith id ("_") then [] else [id]
  | .assign targets _ _ =>
    targets.filterMap (fun t =>
      match t with
      | .name id => if startswith id ("_") then none else some id
      | .other => none)
  | _ => []

/-- Empty arguments record, used by the concrete example inputs below. -/
def noArgs : Arguments :=
  { posonlyargs := [], args := [], vararg := none,
    kwonlyargs := [], kw_defaults := [], kwarg := none, defaults := [] }

/-- Example node for `def m(self): ...` on line 3. -/
def exMDef : FunctionDef :=
  .mk ("m")
    { posonlyargs := [], args := [⟨"self", none, 3⟩], vararg := none,
      kwonlyargs := [], kw_defaults := [], kwarg := none, defaults := [] } [] [] 3

/-- Example node for `class Inner:` containing `m`. -/
def exInner : ClassDef := .mk ("Inner") [.functionDef exMDef] [] 2

/-- Example node for `class Outer:` containing `Inner`. -/
def exOuter : ClassDef := .mk ("Outer") [.classDef exInner] [] 1

/-- Example module whose only statement is `class Outer`. -/
def exModuleNested : Module := ⟨[.classDef exOuter]⟩

/-- Example node for `def g(): pass`, nested inside `h` below. -/
def exGDef : FunctionDef := .mk ("g") noArgs [.passStmt] [] 2

/-- Example node for `def h():` whose body defines the local helper `g`. -/
def exHDef : FunctionDef := .mk ("h") noArgs [.functionDef exGDef] [] 1

/-- Example module whose only statement is `def h`. -/
def exModuleFnNested : Module := ⟨[.functionDef exHDef]⟩

/-- Example node for `def f(a, b=1, *, c, d=2): ...` on line 1. -/
def exFDef : FunctionDef :=
  .mk ("f")
    { posonlyargs := [], args := [⟨"a", none, 1⟩, ⟨"b", none, 1⟩],
      vararg := none, kwonlyargs := [⟨"c", none, 1⟩, ⟨"d", none, 1⟩],
      kw_defaults := [none, some (.constant ("2"))], kwarg := none,
      defaults := [.constant ("1")] } [] [] 1

/-- Example node for a dataclass-decorated class with one public and one
underscore-named field:
`@dataclass class P:` with body `x: int = 0` and `_h = 1`. -/
def exPCls : ClassDef :=
  .mk ("P")
    [.annAssign (.name ("x")) (.name ("int")) (some (.constant ("0"))) 3,
     .assign [.name ("_h")] (.constant ("1")) 4] [.name ("dataclass")] 2

/-- Example node for `def wrap():` whose body defines class `P`. -/
def exWrapDef : FunctionDef := .mk ("wrap") noArgs [.classDef exPCls] [] 1

/-- Example module whose only statement is `def wrap`. -/
def exModuleClsInFn : Module := ⟨[.functionDef exWrapDef]⟩

end Api

namespace Api

theorem cnvVisitList_append (ctx : List String) :
    ∀ (l1 l2 : List Stmt) (out : List (String × FunctionDef)),
      cnvVisitList ctx out (l1 ++ l2) = cnvVisitList ctx (cnvVisitList ctx out l1) l2
  | [], _, _ => rfl
  | s :: rest, l2, out => cnvVisitList_append ctx rest l2 (cnvVisit ctx out s)

mutual

theorem cnvVisit_prefix :
    ∀ (s : Stmt) (ctx : List String) (out : List (String × FunctionDef)),
      ∃ ext, cnvVisit ctx out s = out ++ ext
  | .functionDef _, _, _ => ⟨_, rfl⟩
  | .classDef (.mk n body _ _), ctx, out => cnvVisitList_prefix body (ctx ++ [n]) out
  | .ifStmt _ body orelse, ctx, out => by
      obtain ⟨e1, h1⟩ := cnvVisitList_prefix body ctx out
      obtain ⟨e2, h2⟩ := cnvVisitList_prefix orelse ctx (cnvVisitList ctx out body)
      exact ⟨e1 ++ e2, by rw [show cnvVisit ctx out (.ifStmt _ body orelse) =
        cnvVisitList ctx (cnvVisitList ctx out body) orelse from rfl, h2, h1,
        List.append_assoc]⟩
  | .annAssign _ _ _ _, _, out => ⟨[], (List.append_nil out).symm⟩
  | .assign _ _ _, _, out => ⟨[], (List.append_nil out).symm⟩
  | .exprStmt _, _, out => ⟨[], (List.append_nil out).symm⟩
  | .returnStmt _, _, out => ⟨[], (List.append_nil out).symm⟩
  | .passStmt, _, out => ⟨[], (List.append_nil out).symm⟩

theorem cnvVisitList_prefix :
    ∀ (l : List Stmt) (ctx : List String) (out : List (String × FunctionDef)),
      ∃ ext, cnvVisitList ctx out l = out ++ ext
  | [], _, out => ⟨[], (List.append_nil out).symm⟩
  | s :: rest, ctx, out => by
      obtain ⟨e1, h1⟩ := cnvVisit_prefix s ctx out
      obtain ⟨e2, h2⟩ := cnvVisitList_prefix rest ctx (cnvVisit ctx out s)
      exact ⟨e1 ++ e2, by rw [show cnvVisitList ctx out (s :: rest) =
        cnvVisitList ctx (cnvVisit ctx out s) rest from rfl, h2, h1, List.append_assoc]⟩

end

theorem mem_cnvVisitList_mono {p : String × FunctionDef} (ctx : List String)
    (out : List (String × FunctionDef)) (l : List Stmt) (h : p ∈ out) :
    p ∈ cnvVisitList ctx out l := by
  obtain ⟨ext, he⟩ := cnvVisitList_prefix l ctx out
  rw [he]
  exact List.mem_append_left _ h

theorem reachable_mem_cnvVisit {rel : List String} {d : FunctionDef} {s : Stmt}
    (h : ReachableDef rel d s) :
    ∀ (ctx : List String) (out : List (String × FunctionDef)),
      (dotJoin (ctx ++ rel ++ [d.name]), d) ∈ cnvVisit ctx out s := by
  induction h with
  | self d =>
    intro ctx out
    rw [show cnvVisit ctx out (.functionDef d) =
      out ++ [(dotJoin (ctx ++ [d.name]), d)] from rfl]
    refine List.mem_append_right _ ?_
    simp
  | inClassBody c s rel d hs _ ih =>
    intro ctx out
    obtain ⟨n, body, decs, l⟩ := c
    simp only [ClassDef.body] at hs
    simp only [ClassDef.name]
    obtain ⟨l1, l2, hsplit⟩ := List.append_of_mem hs
    rw [show cnvVisit ctx out (.classDef (.mk n body decs l)) =
      cnvVisitList (ctx ++ [n]) out body from rfl, hsplit, cnvVisitList_append,
      show cnvVisitList (ctx ++ [n]) (cnvVisitList (ctx ++ [n]) out l1) (s :: l2) =
        cnvVisitList (ctx ++ [n]) (cnvVisit (ctx ++ [n]) (cnvVisitList (ctx ++ [n]) out l1) s) l2
        from rfl]
    apply mem_cnvVisitList_mono
    have hmem := ih (ctx ++ [n]) (cnvVisitList (ctx ++ [n]) out l1)
    rw [show ctx ++ [n] ++ rel = ctx ++ n :: rel from by simp] at hmem
    exact hmem

theorem reachable_mem_cnvVisitList {rel : List String} {d : FunctionDef} {s : Stmt}
    (h : ReachableDef rel d s) (l : List Stmt) (hs : s ∈ l)
    (ctx : List String) (out : List (String × FunctionDef)) :
    (dotJoin (ctx ++ rel ++ [d.name]), d) ∈ cnvVisitList ctx out l := by
  obtain ⟨l1, l2, hsplit⟩ := List.append_of_mem hs
  rw [hsplit, cnvVisitList_append,
    show cnvVisitList ctx (cnvVisitList ctx out l1) (s :: l2) =
      cnvVisitList ctx (cnvVisit ctx (cnvVisitList ctx out l1) s) l2 from rfl]
  exact mem_cnvVisitList_mono _ _ _ (reachable_mem_cnvVisit h ctx (cnvVisitList ctx out l1))

theorem dictGet_isSome_of_mem {α : Type} {m : List (String × α)} {k : String} {v : α}
    (h : (k, v) ∈ m) : (dictGet m k).isSome := by
  have hfind : (List.find? (fun p => p.1 == k) m.reverse).isSome :=
    List.find?_isSome.mpr ⟨(k, v), List.mem_reverse.mpr h, by simp⟩
  rw [dictGet]
  obtain ⟨p, hp⟩ := Option.isSome_iff_exists.mp hfind
  rw [hp]
  rfl

/-- C2: every function definition reachable from the module body by
descending into class bodies only (at any class-nesting depth) is recorded
by `extract_raw` under its qualified name, namely the enclosing class names
followed by its own name, joined with dots; in particular the resulting
mapping has an entry under that key. -/
theorem extract_raw_records_reachable_defs (m : Module) (rel : List String)
    (d : FunctionDef) (s : Stmt) (hs : s ∈ m.body) (h : ReachableDef rel d s) :
    (dotJoin (rel ++ [d.name]), d) ∈ extract_raw m ∧
      (dictGet (extract_raw m) (dotJoin (rel ++ [d.name]))).isSome := by
  have hm := reachable_mem_cnvVisitList h m.body hs [] []
  rw [List.nil_append] at hm
  exact ⟨hm, dictGet_isSome_of_mem hm⟩

/-- Witness for C2 at the spec's own example `class Outer: class Inner:
def m(self): ...`: the callable mapping contains the key `Outer.Inner.m`,
bound to the raw definition of `m`. -/
theorem extract_raw_records_reachable_defs_witness :
    ("Outer.Inner.m", exMDef) ∈ extract_raw exModuleNested ∧
      (dictGet (extract_raw exModuleNested) ("Outer.Inner.m")).isSome := by
  have h := extract_raw_records_reachable_defs exModuleNested ["Outer", "Inner"]
    exMDef (.classDef exOuter) (List.Mem.head _)
    (ReachableDef.inClassBody exOuter (.classDef exInner) _ _ (List.Mem.head _)
      (ReachableDef.inClassBody exInner (.functionDef exMDef) _ _ (List.Mem.head _)
        (ReachableDef.self exMDef)))
  simpa [dotJoin, exMDef, FunctionDef.name] using h

end Api

namespace Api

mutual

theorem mem_cnvVisit_sound :
    ∀ (s : Stmt) (ctx : List String) (out : List (String × FunctionDef))
      (q : String) (d : FunctionDef),
      (q, d) ∈ cnvVisit ctx out s → (q, d) ∈ out ∨ ExposedIn d s
  | .functionDef f, ctx, out, q, d, h => by
    rw [show cnvVisit ctx out (.functionDef f) =
      out ++ [(dotJoin (ctx ++ [f.name]), f)] from rfl] at h
    rcases List.mem_append.mp h with h1 | h2
    · exact .inl h1
    · rcases List.mem_singleton.mp h2 with heq
      rcases Prod.mk.injEq .. ▸ heq with ⟨_, rfl⟩
      exact .inr ExposedIn.self
  | .classDef (.mk n body decs l), ctx, out, q, d, h => by
    rcases mem_cnvVisitList_sound body (ctx ++ [n]) out q d h with h1 | ⟨s, hs, he⟩
    · exact .inl h1
    · exact .inr (ExposedIn.inClassBody (.mk n body decs l) s hs he)
  | .ifStmt t body orelse, ctx, out, q, d, h => by
    rcases mem_cnvVisitList_sound orelse ctx (cnvVisitList ctx out body) q d h with h1 | ⟨s, hs, he⟩
    · rcases mem_cnvVisitList_sound body ctx out q d h1 with h2 | ⟨s, hs, he⟩
      · exact .inl h2
      · exact .inr (ExposedIn.inIfBody t body orelse s hs he)
    · exact .inr (ExposedIn.inIfElse t body orelse s hs he)
  | .annAssign _ _ _ _, _, _, _, _, h => .inl h
  | .assign _ _ _, _, _, _, _, h => .inl h
  | .exprStmt _, _, _, _, _, h => .inl h
  | .returnStmt _, _, _, _, _, h => .inl h
  | .passStmt, _, _, _, _, h => .inl h

theorem mem_cnvVisitList_sound :
    ∀ (l : List Stmt) (ctx : List String) (out : List (String × FunctionDef))
      (q : String) (d : FunctionDef),
      (q, d) ∈ cnvVisitList ctx out l → (q, d) ∈ out ∨ ∃ s ∈ l, ExposedIn d s
  | [], _, _, _, _, h => .inl h
  | s :: rest, ctx, out, q, d, h => by
    rcases mem_cnvVisitList_sound rest ctx (cnvVisit ctx out s) q d h with h1 | ⟨s', hs, he⟩
    · rcases mem_cnvVisit_sound s ctx out q d h1 with h2 | he
      · exact .inl h2
      · exact .inr ⟨s, List.mem_cons_self .., he⟩
    · exact .inr ⟨s', List.mem_cons_of_mem _ hs, he⟩

end

/-- C1: a callable defined lexically inside another function's body — at any
nesting depth, whether or not the enclosing function is itself inside a class
— has no entry in the callable mapping produced by `extract_raw`.  The
hypothesis says that `d` has no occurrence reachable without entering a
function body, which is exactly the situation of a local helper defined only
inside some function. -/
theorem nested_callables_not_recorded (m : Module) (d : FunctionDef)
    (hnot : ∀ s ∈ m.body, ¬ ExposedIn d s) (q : String) :
    (q, d) ∉ extract_raw m := by
  intro hmem
  rcases mem_cnvVisitList_sound m.body [] [] q d hmem with h | ⟨s, hs, he⟩
  · simp at h
  · exact hnot s hs he

theorem exposedIn_functionDef {d f : FunctionDef} (h : ExposedIn d (.functionDef f)) :
    f = d := by
  cases h
  rfl

/-- Witness for C1: in a module whose single statement is `def h` with a
local `def g` in its body, no key maps to the definition of `g`. -/
theorem nested_callables_not_recorded_witness :
    ("g", exGDef) ∉ extract_raw exModuleFnNested := by
  apply nested_callables_not_recorded exModuleFnNested exGDef
  intro s hs he
  rcases List.mem_singleton.mp hs with rfl
  have heq := exposedIn_functionDef he
  simp [exHDef, exGDef] at heq

theorem cvVisitList_append (ctx : List String) :
    ∀ (l1 l2 : List Stmt) (out : List (String × Class)),
      cvVisitList ctx out (l1 ++ l2) = cvVisitList ctx (cvVisitList ctx out l1) l2
  | [], _, _ => rfl
  | s :: rest, l2, out => cvVisitList_append ctx rest l2 (cvVisit ctx out s)

mutual

theorem cvVisit_prefix :
    ∀ (s : Stmt) (ctx : List String) (out : List (String × Class)),
      ∃ ext, cvVisit ctx out s = out ++ ext
  | .classDef (.mk n body decs l), ctx, out => by
    obtain ⟨e1, h1⟩ := cvVisitList_prefix body (ctx ++ [n])
      (out ++ [(dotJoin (ctx ++ [n]), classDefToClass (.mk n body decs l))])
    exact ⟨[(dotJoin (ctx ++ [n]), classDefToClass (.mk n body decs l))] ++ e1, by
      rw [show cvVisit ctx out (.classDef (.mk n body decs l)) =
        cvVisitList (ctx ++ [n])
          (out ++ [(dotJoin (ctx ++ [n]), classDefToClass (.mk n body decs l))]) body
        from rfl, h1, List.append_assoc]⟩
  | .functionDef (.mk nm ar body decs l), ctx, out =>
    cvVisitList_prefix body ctx out
  | .ifStmt _ body orelse, ctx, out => by
    obtain ⟨e1, h1⟩ := cvVisitList_prefix body ctx out
    obtain ⟨e2, h2⟩ := cvVisitList_prefix orelse ctx (cvVisitList ctx out body)
    exact ⟨e1 ++ e2, by rw [show cvVisit ctx out (.ifStmt _ body orelse) =
      cvVisitList ctx (cvVisitList ctx out body) orelse from rfl, h2, h1,
      List.append_assoc]⟩
  | .annAssign _ _ _ _, _, out => ⟨[], (List.append_nil out).symm⟩
  | .assign _ _ _, _, out => ⟨[], (List.append_nil out).symm⟩
  | .exprStmt _, _, out => ⟨[], (List.append_nil out).symm⟩
  | .returnStmt _, _, out => ⟨[], (List.append_nil out).symm⟩
  | .passStmt, _, out => ⟨[], (List.append_nil out).symm⟩

theorem cvVisitList_prefix :
    ∀ (l : List Stmt) (ctx : List String) (out : List (String × Class)),
      ∃ ext, cvVisitList ctx out l = out ++ ext
  | [], _, out => ⟨[], (List.append_nil out).symm⟩
  | s :: rest, ctx, out => by
    obtain ⟨e1, h1⟩ := cvVisit_prefix s ctx out
    obtain ⟨e2, h2⟩ := cvVisitList_prefix rest ctx (cvVisit ctx out s)
    exact ⟨e1 ++ e2, by rw [show cvVisitList ctx out (s :: rest) =
      cvVisitList ctx (cvVisit ctx out s) rest from rfl, h2, h1, List.append_assoc]⟩

end

theorem mem_cvVisitList_mono {p : String × Class} (ctx : List String)
    (out : List (String × Class)) (l : List Stmt) (h : p ∈ out) :
    p ∈ cvVisitList ctx out l := by
  obtain ⟨ext, he⟩ := cvVisitList_prefix l ctx out
  rw [he]
  exact List.mem_append_left _ h

theorem mem_cvVisitList_of_visit {p : String × Class} (ctx : List String) :
    ∀ (l : List Stmt) (out : List (String × Class)) (s : Stmt), s ∈ l →
      (∀ acc, p ∈ cvVisit ctx acc s) → p ∈ cvVisitList ctx out l
  | [], _, s, hs, _ => absurd hs (List.not_mem_nil s)
  | a :: rest, out, s, hs, h => by
    rcases List.mem_cons.mp hs with rfl | hs'
    · exact mem_cvVisitList_mono ctx _ rest (h out)
    · exact mem_cvVisitList_of_visit ctx rest (cvVisit ctx out a) s hs' h

theorem classreach_mem_cvVisit {rel : List String} {c : ClassDef} {s : Stmt}
    (h : ClassReachable rel c s) :
    ∀ (ctx : List String) (out : List (String × Class)),
      (dotJoin (ctx ++ rel ++ [c.name]), classDefToClass c) ∈ cvVisit ctx out s := by
  induction h with
  | self c =>
    intro ctx out
    obtain ⟨n, body, decs, l⟩ := c
    simp only [ClassDef.name]
    rw [show cvVisit ctx out (.classDef (.mk n body decs l)) =
      cvVisitList (ctx ++ [n])
        (out ++ [(dotJoin (ctx ++ [n]), classDefToClass (.mk n body decs l))]) body
      from rfl]
    apply mem_cvVisitList_mono
    refine List.mem_append_right _ ?_
    simp
  | inClassBody cOuter s rel c hs _ ih =>
    intro ctx out
    obtain ⟨n, body, decs, l⟩ := cOuter
    simp only [ClassDef.body] at hs
    simp only [ClassDef.name]
    rw [show cvVisit ctx out (.classDef (.mk n body decs l)) =
      cvVisitList (ctx ++ [n])
        (out ++ [(dotJoin (ctx ++ [n]), classDefToClass (.mk n body decs l))]) body
      from rfl]
    apply mem_cvVisitList_of_visit (ctx ++ [n]) body _ s hs
    intro acc
    have hmem := ih (ctx ++ [n]) acc
    rw [show ctx ++ [n] ++ rel = ctx ++ n :: rel from by simp] at hmem
    exact hmem
  | inFunctionBody f s rel c hs _ ih =>
    intro ctx out
    obtain ⟨nm, ar, body, decs, l⟩ := f
    simp only [FunctionDef.body] at hs
    rw [show cvVisit ctx out (.functionDef (.mk nm ar body decs l)) =
      cvVisitList ctx out body from rfl]
    exact mem_cvVisitList_of_visit ctx body out s hs (fun acc => ih ctx acc)
  | inIfBody t body orelse s rel c hs _ ih =>
    intro ctx out
    rw [show cvVisit ctx out (.ifStmt t body orelse) =
      cvVisitList ctx (cvVisitList ctx out body) orelse from rfl]
    exact mem_cvVisitList_mono ctx _ orelse
      (mem_cvVisitList_of_visit ctx body out s hs (fun acc => ih ctx acc))
  | inIfElse t body orelse s rel c hs _ ih =>
    intro ctx out
    rw [show cvVisit ctx out (.ifStmt t body orelse) =
      cvVisitList ctx (cvVisitList ctx out body) orelse from rfl]
    exact mem_cvVisitList_of_visit ctx orelse (cvVisitList ctx out body) s hs
      (fun acc => ih ctx acc)

theorem classreach_mem_cvVisitList {rel : List String} {c : ClassDef} {s : Stmt}
    (h : ClassReachable rel c s) (l : List Stmt) (hs : s ∈ l)
    (ctx : List String) (out : List (String × Class)) :
    (dotJoin (ctx ++ rel ++ [c.name]), classDefToClass c) ∈ cvVisitList ctx out l :=
  mem_cvVisitList_of_visit ctx l out s hs (fun acc => classreach_mem_cvVisit h ctx acc)

end Api

namespace Api

mutual

theorem mem_cvVisit_sound :
    ∀ (s : Stmt) (ctx : List String) (out : List (String × Class))
      (q : String) (v : Class),
      (q, v) ∈ cvVisit ctx out s → (q, v) ∈ out ∨
        ∃ rel c, ClassReachable rel c s ∧ q = dotJoin (ctx ++ rel ++ [c.name]) ∧
          v = classDefToClass c
  | .classDef (.mk n body decs l), ctx, out, q, v, h => by
    rcases mem_cvVisitList_sound body (ctx ++ [n])
        (out ++ [(dotJoin (ctx ++ [n]), classDefToClass (.mk n body decs l))]) q v h with
      h1 | ⟨rel, c, s, hs, hcr, hq, hv⟩
    · rcases List.mem_append.mp h1 with h2 | h3
      · exact .inl h2
      · rcases Prod.mk.injEq .. ▸ List.mem_singleton.mp h3 with ⟨rfl, rfl⟩
        refine .inr ⟨[], .mk n body decs l, ClassReachable.self _, ?_, rfl⟩
        simp [ClassDef.name]
    · refine .inr ⟨n :: rel, c,
        ClassReachable.inClassBody (.mk n body decs l) s rel c hs hcr, ?_, hv⟩
      rw [hq]
      congr 1
      simp
  | .functionDef (.mk nm ar body decs l), ctx, out, q, v, h => by
    rcases mem_cvVisitList_sound body ctx out q v h with h1 | ⟨rel, c, s, hs, hcr, hq, hv⟩
    · exact .inl h1
    · exact .inr ⟨rel, c,
        ClassReachable.inFunctionBody (.mk nm ar body decs l) s rel c hs hcr, hq, hv⟩
  | .ifStmt t body orelse, ctx, out, q, v, h => by
    rcases mem_cvVisitList_sound orelse ctx (cvVisitList ctx out body) q v h with
      h1 | ⟨rel, c, s, hs, hcr, hq, hv⟩
    · rcases mem_cvVisitList_sound body ctx out q v h1 with h2 | ⟨rel, c, s, hs, hcr, hq, hv⟩
      · exact .inl h2
      · exact .inr ⟨rel, c, ClassReachable.inIfBody t body orelse s rel c hs hcr, hq, hv⟩
    · exact .inr ⟨rel, c, ClassReachable.inIfElse t body orelse s rel c hs hcr, hq, hv⟩
  | .annAssign _ _ _ _, _, _, _, _, h => .inl h
  | .assign _ _ _, _, _, _, _, h => .inl h
  | .exprStmt _, _, _, _, _, h => .inl h
  | .returnStmt _, _, _, _, _, h => .inl h
  | .passStmt, _, _, _, _, h => .inl h

theorem mem_cvVisitList_sound :
    ∀ (l : List Stmt) (ctx : List String) (out : List (String × Class))
      (q : String) (v : Class),
      (q, v) ∈ cvVisitList ctx out l → (q, v) ∈ out ∨
        ∃ rel c s, s ∈ l ∧ ClassReachable rel c s ∧ q = dotJoin (ctx ++ rel ++ [c.name]) ∧
          v = classDefToClass c
  | [], _, _, _, _, h => .inl h
  | s :: rest, ctx, out, q, v, h => by
    rcases mem_cvVisitList_sound rest ctx (cvVisit ctx out s) q v h with
      h1 | ⟨rel, c, s', hs, hcr, hq, hv⟩
    · rcases mem_cvVisit_sound s ctx out q v h1 with h2 | ⟨rel, c, hcr, hq, hv⟩
      · exact .inl h2
      · exact .inr ⟨rel, c, s, List.mem_cons_self .., hcr, hq, hv⟩
    · exact .inr ⟨rel, c, s', List.mem_cons_of_mem _ hs, hcr, hq, hv⟩

end

theorem extract_classes_sound (m : Module) (q : String) (v : Class)
    (h : (q, v) ∈ extract_classes m) :
    ∃ rel c s, s ∈ m.body ∧ ClassReachable rel c s ∧
      q = dotJoin (rel ++ [c.name]) ∧ v = classDefToClass c := by
  rcases mem_cvVisitList_sound m.body [] [] q v h with h1 | ⟨rel, c, s, hs, hcr, hq, hv⟩
  · simp at h1
  · exact ⟨rel, c, s, hs, hcr, by simpa using hq, hv⟩


end Api
namespace Api

/-- C9: classes defined inside function bodies (module-level functions and
methods alike) are still recorded by `extract_classes`, under a key built
from the enclosing class names only: first, every class occurrence the
visitor reaches — `ClassReachable` descends through class bodies, function
bodies and conditionals, extending the context path only at class
definitions — is recorded under the dot-join of its class context; second,
every entry of the mapping arises this way, so no function name ever
appears in any key. -/
theorem extract_classes_keys_ignore_functions (m : Module) :
    (∀ (rel : List String) (c : ClassDef) (s : Stmt), s ∈ m.body →
      ClassReachable rel c s →
      (dotJoin (rel ++ [c.name]), classDefToClass c) ∈ extract_classes m) ∧
    (∀ (q : String) (v : Class), (q, v) ∈ extract_classes m →
      ∃ rel c s, s ∈ m.body ∧ ClassReachable rel c s ∧
        q = dotJoin (rel ++ [c.name]) ∧ v = classDefToClass c) := by
  constructor
  · intro rel c s hs hcr
    have hmem := classreach_mem_cvVisitList hcr m.body hs [] []
    simpa [extract_classes] using hmem
  · intro q v h
    exact extract_classes_sound m q v h

/-- Witness for C9: in a module whose single statement is `def wrap:` with
`class P` in its body, the class mapping still has an entry for `P`, keyed
without the function name. -/
theorem extract_classes_keys_ignore_functions_witness :
    ("P", classDefToClass exPCls) ∈ extract_classes exModuleClsInFn := by
  have h := (extract_classes_keys_ignore_functions exModuleClsInFn).1 [] exPCls
    (.functionDef exWrapDef) (List.Mem.head _)
    (ClassReachable.inFunctionBody exWrapDef (.classDef exPCls) [] exPCls
      (List.Mem.head _) (ClassReachable.self exPCls))
  simpa [dotJoin, exPCls, ClassDef.name] using h

theorem isDataclassDec_iff (dec : Expr) : isDataclassDec dec = true ↔ DataclassShaped dec := by
  cases dec with
  | name id =>
    show (id == "dataclass" || false) = true ↔ _
    simp [DataclassShaped]
  | attrAccess v a =>
    show (false || (a == "dataclass")) = true ↔ _
    simp [DataclassShaped]
  | call f =>
    show (false || false) = true ↔ _
    simp [DataclassShaped]
  | constant t =>
    show (false || false) = true ↔ _
    simp [DataclassShaped]

/-- C5: every class descriptor produced by `extract_classes` comes from a
reachable class definition, and its dataclass flag is true exactly when some
decorator of that definition is a bare identifier named dataclass or an
attribute access whose trailing member is named dataclass; any other
decorator shape does not set the flag. -/
theorem extract_classes_dataclass_flag (m : Module) (q : String) (v : Class)
    (h : (q, v) ∈ extract_classes m) :
    ∃ rel c s, s ∈ m.body ∧ ClassReachable rel c s ∧ v = classDefToClass c ∧
      (v.dataclass = true ↔ ∃ dec ∈ ClassDef.decorator_list c, DataclassShaped dec) := by
  obtain ⟨rel, c, s, hs, hcr, _, hv⟩ := extract_classes_sound m q v h
  refine ⟨rel, c, s, hs, hcr, hv, ?_⟩
  subst hv
  rw [show (classDefToClass c).dataclass =
    (ClassDef.decorator_list c).any isDataclassDec from rfl, List.any_eq_true]
  exact exists_congr (fun dec => and_congr_right (fun _ => isDataclassDec_iff dec))

/-- Witness for C5 at the concrete module: the descriptor recorded for the
`dataclass`-decorated class `P` has its dataclass flag set, justified by the
bare `dataclass` decorator in its decorator list. -/
theorem extract_classes_dataclass_flag_witness :
    ∃ rel c s, s ∈ exModuleClsInFn.body ∧ ClassReachable rel c s ∧
      classDefToClass exPCls = classDefToClass c ∧
      ((classDefToClass exPCls).dataclass = true ↔
        ∃ dec ∈ ClassDef.decorator_list c, DataclassShaped dec) :=
  extract_classes_dataclass_flag exModuleClsInFn ("P") (classDefToClass exPCls)
    (List.Mem.head _)

end Api

namespace Api

theorem stmtFields_no_underscore :
    ∀ (s : Stmt) (fld : Field), fld ∈ stmtFields s →
      startswith (Field.name fld) ("_") = false
  | .annAssign (.name id) ann value lineno, fld, h => by
    rw [show stmtFields (.annAssign (.name id) ann value lineno) =
      (if startswith id ("_") then [] else
        [{ name := id, required := value.isNone, line := lineno,
           ty := annToDesc (some ann) }]) from rfl] at h
    split at h
    · exact absurd h (List.not_mem_nil _)
    · next hc =>
      rcases List.mem_singleton.mp h with rfl
      simpa using hc
  | .annAssign .other _ _ _, _, h => absurd h (List.not_mem_nil _)
  | .assign targets value lineno, fld, h => by
    rcases List.mem_filterMap.mp h with ⟨t, _, hf⟩
    cases t with
    | name id =>
      rw [show (match Target.name id with
        | Target.name field_name =>
          if startswith field_name ("_") then none
          else some { name := field_name, required := false, line := lineno,
                      ty := none }
        | Target.other => none) =
        (if startswith id ("_") then none
         else some ({ name := id, required := false, line := lineno,
                      ty := none } : Field)) from rfl] at hf
      split at hf
      · exact absurd hf (by simp)
      · next hc =>
        rcases Option.some.inj hf with rfl
        simpa using hc
    | other => exact absurd hf (by simp)
  | .functionDef _, _, h => absurd h (List.not_mem_nil _)
  | .classDef _, _, h => absurd h (List.not_mem_nil _)
  | .ifStmt _ _ _, _, h => absurd h (List.not_mem_nil _)
  | .exprStmt _, _, h => absurd h (List.not_mem_nil _)
  | .returnStmt _, _, h => absurd h (List.not_mem_nil _)
  | .passStmt, _, h => absurd h (List.not_mem_nil _)

theorem foldl_append_fields :
    ∀ (body : List Stmt) (acc : List Field),
      body.foldl (fun a s => a ++ stmtFields s) acc = acc ++ body.flatMap stmtFields
  | [], acc => by simp
  | s :: rest, acc => by
    rw [List.foldl_cons, foldl_append_fields rest (acc ++ stmtFields s),
      List.flatMap_cons, List.append_assoc]

theorem classBodyFields_eq_flatMap (body : List Stmt) :
    classBodyFields body = body.flatMap stmtFields := by
  rw [classBodyFields, foldl_append_fields]
  simp

/-- C6: no class descriptor produced by `extract_classes` contains a field
whose name begins with an underscore, whether the field came from an
annotated assignment or from a plain assignment in the class body. -/
theorem extract_classes_no_underscore_fields (m : Module) (q : String) (v : Class)
    (h : (q, v) ∈ extract_classes m) :
    ∀ fld ∈ v.fields, startswith (Field.name fld) ("_") = false := by
  obtain ⟨rel, c, s, hs, hcr, hq, hv⟩ := extract_classes_sound m q v h
  subst hv
  intro fld hf
  rw [show (classDefToClass c).fields = classBodyFields (ClassDef.body c) from rfl,
    classBodyFields_eq_flatMap] at hf
  rcases List.mem_flatMap.mp hf with ⟨s', _, hmem⟩
  exact stmtFields_no_underscore s' fld hmem

/-- Witness for C6: the class `P` of the concrete module declares `x` and
`_h`; the recorded field `x` satisfies the no-underscore property (and the
descriptor contains no entry at all for `_h`). -/
theorem extract_classes_no_underscore_fields_witness :
    startswith (Field.name (⟨"x", false, 3, some (.name ("int"))⟩ : Field)) ("_") = false :=
  extract_classes_no_underscore_fields exModuleClsInFn ("P") (classDefToClass exPCls)
    (List.Mem.head _) _ (List.Mem.head _)

end Api

namespace Api

theorem stmtFields_names_pointwise (lineno : Nat) :
    ∀ (t : Target),
      Option.map (fun fld => Field.name fld)
        (match t with
          | Target.name field_name =>
            if startswith field_name ("_") then none
            else some ({ name := field_name, required := false, line := lineno,
                         ty := none } : Field)
          | Target.other => none)
      = (match t with
          | Target.name id => if startswith id ("_") then none else some id
          | Target.other => none)
  | .name id => by
    by_cases hc : startswith id ("_") <;> simp [hc]
  | .other => rfl

theorem stmtFields_names (s : Stmt) :
    (stmtFields s).map (fun fld => Field.name fld) = stmtFieldNames s := by
  cases s with
  | annAssign target ann value lineno =>
    cases target with
    | name id =>
      show (if startswith id ("_") then ([] : List Field) else
          [{ name := id, required := value.isNone, line := lineno,
             ty := annToDesc (some ann) }]).map (fun fld => Field.name fld)
        = (if startswith id ("_") then ([] : List String) else [id])
      by_cases hc : startswith id ("_") <;> simp [hc]
    | other => rfl
  | assign targets value lineno =>
    show (targets.filterMap (fun t =>
        match t with
        | Target.name field_name =>
          if startswith field_name ("_") then none
          else some { name := field_name, required := false, line := lineno,
                      ty := none }
        | Target.other => none)).map (fun fld => Field.name fld)
      = targets.filterMap (fun t =>
          match t with
          | Target.name id => if startswith id ("_") then none else some id
          | Target.other => none)
    rw [List.map_filterMap]
    exact List.filterMap_congr (fun t _ => stmtFields_names_pointwise lineno t)
  | functionDef f => rfl
  | classDef c => rfl
  | ifStmt t b o => rfl
  | exprStmt e => rfl
  | returnStmt v => rfl
  | passStmt => rfl

/-- C10: a class descriptor contains one field per qualifying simple-name
target of the direct assignment statements of the class body, in statement
and target-list order; in particular repeated bindings of the same
non-underscore name each contribute their own field — the projection of the
field list to names equals the concatenation, over the body statements, of
each statement's qualifying target names, with no merging or deduplication. -/
theorem class_fields_one_per_target (c : ClassDef) :
    (classDefToClass c).fields.map (fun fld => Field.name fld)
      = (ClassDef.body c).flatMap stmtFieldNames := by
  rw [show (classDefToClass c).fields = classBodyFields (ClassDef.body c) from rfl,
    classBodyFields_eq_flatMap, List.map_flatMap]
  congr 1
  funext s
  exact stmtFields_names s

end Api

namespace Api

theorem posParams_length (num_required : Nat) (pf kf : Bool) :
    ∀ (l : List Arg) (start : Nat),
      (posParams start num_required pf kf l).length = l.length
  | [], _ => rfl
  | _ :: rest, start => by
    rw [show posParams start num_required pf kf (_ :: rest) =
      _ :: posParams (start + 1) num_required pf kf rest from rfl]
    simp [posParams_length num_required pf kf rest (start + 1)]

theorem posParams_getElem? (num_required : Nat) (pf kf : Bool) :
    ∀ (l : List Arg) (start i : Nat),
      (posParams start num_required pf kf l)[i]? =
        (l[i]?).map (fun a =>
          { name := a.arg, positional := pf, keyword := kf,
            required := decide (start + i < num_required), line := a.lineno,
            ty := annToDesc a.ann })
  | [], _, i => by simp [posParams]
  | a :: rest, start, 0 => by simp [posParams]
  | a :: rest, start, i + 1 => by
    rw [show posParams start num_required pf kf (a :: rest) =
      _ :: posParams (start + 1) num_required pf kf rest from rfl,
      List.getElem?_cons_succ, List.getElem?_cons_succ,
      posParams_getElem? num_required pf kf rest (start + 1) i,
      show start + 1 + i = start + (i + 1) from by omega]

theorem kwonlyParamsOf_getElem? :
    ∀ (as : List Arg) (ds : List (Option Expr)) (i : Nat) (a : Arg) (d : Option Expr),
      as[i]? = some a → ds[i]? = some d →
      (kwonlyParamsOf as ds)[i]? = some
        { name := a.arg, positional := false, keyword := true,
          required := d.isNone, line := a.lineno, ty := annToDesc a.ann }
  | a0 :: as, d0 :: ds, 0, a, d, ha, hd => by
    rw [List.getElem?_cons_zero] at ha hd
    rcases Option.some.inj ha with rfl
    rcases Option.some.inj hd with rfl
    simp [kwonlyParamsOf]
  | a0 :: as, d0 :: ds, i + 1, a, d, ha, hd => by
    rw [List.getElem?_cons_succ] at ha hd
    rw [show kwonlyParamsOf (a0 :: as) (d0 :: ds) =
      _ :: kwonlyParamsOf as ds from rfl, List.getElem?_cons_succ]
    exact kwonlyParamsOf_getElem? as ds i a d ha hd
  | [], _, _, _, _, ha, _ => by simp at ha
  | _ :: _, [], _, _, _, _, hd => by simp at hd

theorem function_def_to_parameters_some {f : FunctionDef} {sig : Parameters}
    (h : function_def_to_parameters f = some sig) :
    (FunctionDef.args f).defaults.length ≤
        (FunctionDef.args f).posonlyargs.length + (FunctionDef.args f).args.length ∧
      (FunctionDef.args f).kwonlyargs.length = (FunctionDef.args f).kw_defaults.length ∧
      sig.parameters =
        posParams 0
            ((FunctionDef.args f).posonlyargs.length + (FunctionDef.args f).args.length
              - (FunctionDef.args f).defaults.length) true false
            (FunctionDef.args f).posonlyargs
          ++ posParams (FunctionDef.args f).posonlyargs.length
            ((FunctionDef.args f).posonlyargs.length + (FunctionDef.args f).args.length
              - (FunctionDef.args f).defaults.length) true true
            (FunctionDef.args f).args
          ++ kwonlyParamsOf (FunctionDef.args f).kwonlyargs
            (FunctionDef.args f).kw_defaults := by
  simp only [function_def_to_parameters] at h
  split at h
  · exact absurd h (by simp)
  · next hP =>
    split at h
    · next hK =>
      rcases Option.some.inj h with rfl
      exact ⟨Nat.not_lt.mp hP, hK, rfl⟩
    · exact absurd h (by simp)

end Api

namespace Api

/-- C3: for a successfully classified callable with `P` positional
parameters (positional-only plus positional-or-keyword; success of the
classifier entails `D ≤ P` for its `D` default expressions), the parameter
at each positional index `i < P` of the resulting signature is a positional
parameter and is required exactly when `i < P - D`: the first `P - D`
positional parameters are required and the remaining `D` are optional. -/
theorem classifier_positional_required_split (f : FunctionDef) (sig : Parameters)
    (h : function_def_to_parameters f = some sig) (i : Nat) (p : Parameter)
    (hi : i < (FunctionDef.args f).posonlyargs.length + (FunctionDef.args f).args.length)
    (hp : sig.parameters[i]? = some p) :
    p.positional = true ∧
      p.required = decide (i < (FunctionDef.args f).posonlyargs.length
        + (FunctionDef.args f).args.length - (FunctionDef.args f).defaults.length) := by
  obtain ⟨hP, hK, hparams⟩ := function_def_to_parameters_some h
  rw [hparams] at hp
  rcases Nat.lt_or_ge i (FunctionDef.args f).posonlyargs.length with hlt | hge
  · rw [List.getElem?_append_left (by
      rw [List.length_append, posParams_length, posParams_length]
      omega)] at hp
    rw [List.getElem?_append_left (by rw [posParams_length]; omega)] at hp
    rw [posParams_getElem?] at hp
    obtain ⟨a, ha⟩ : ∃ a, (FunctionDef.args f).posonlyargs[i]? = some a :=
      ⟨_, List.getElem?_eq_getElem hlt⟩
    rw [ha, Option.map_some'] at hp
    rcases Option.some.inj hp with rfl
    exact ⟨rfl, by rw [show (0 : Nat) + i = i from by omega]⟩
  · rw [List.getElem?_append_left (by
      rw [List.length_append, posParams_length, posParams_length]
      omega)] at hp
    rw [List.getElem?_append_right (by rw [posParams_length]; omega)] at hp
    rw [posParams_length, posParams_getElem?] at hp
    obtain ⟨a, ha⟩ : ∃ a, (FunctionDef.args f).args[i - (FunctionDef.args f).posonlyargs.length]?
        = some a := ⟨_, List.getElem?_eq_getElem (by omega)⟩
    rw [ha, Option.map_some'] at hp
    rcases Option.some.inj hp with rfl
    refine ⟨rfl, ?_⟩
    rw [show (FunctionDef.args f).posonlyargs.length
      + (i - (FunctionDef.args f).posonlyargs.length) = i from by omega]

/-- C4: for a successfully classified callable, the parameter recorded at
the slot of the `i`-th keyword-only argument is keyword-only (positional
false, keyword true) and is required exactly when the parallel default slot
`kw_defaults[i]` is absent (`None`). -/
theorem classifier_kwonly_required (f : FunctionDef) (sig : Parameters)
    (h : function_def_to_parameters f = some sig) (i : Nat)
    (hi : i < (FunctionDef.args f).kwonlyargs.length) :
    ∃ p d, sig.parameters[(FunctionDef.args f).posonlyargs.length
        + (FunctionDef.args f).args.length + i]? = some p ∧
      (FunctionDef.args f).kw_defaults[i]? = some d ∧
      p.positional = false ∧ p.keyword = true ∧ p.required = d.isNone := by
  obtain ⟨hP, hK, hparams⟩ := function_def_to_parameters_some h
  obtain ⟨a, ha⟩ : ∃ a, (FunctionDef.args f).kwonlyargs[i]? = some a :=
    ⟨_, List.getElem?_eq_getElem hi⟩
  obtain ⟨d, hd⟩ : ∃ d, (FunctionDef.args f).kw_defaults[i]? = some d :=
    ⟨_, List.getElem?_eq_getElem (by omega)⟩
  refine ⟨{ name := a.arg, positional := false, keyword := true,
            required := d.isNone, line := a.lineno, ty := annToDesc a.ann },
    d, ?_, hd, rfl, rfl, rfl⟩
  rw [hparams]
  rw [List.getElem?_append_right (by
    rw [List.length_append, posParams_length, posParams_length]
    omega)]
  rw [List.length_append, posParams_length, posParams_length,
    show (FunctionDef.args f).posonlyargs.length + (FunctionDef.args f).args.length + i
      - ((FunctionDef.args f).posonlyargs.length + (FunctionDef.args f).args.length) = i
      from by omega]
  exact kwonlyParamsOf_getElem? _ _ i a d ha hd

end Api

namespace Api

theorem posParams_flags (num_required : Nat) (pf kf : Bool) :
    ∀ (l : List Arg) (start : Nat) (p : Parameter),
      p ∈ posParams start num_required pf kf l → p.positional = pf ∧ p.keyword = kf
  | [], _, p, h => absurd h (List.not_mem_nil p)
  | a :: rest, start, p, h => by
    rcases List.mem_cons.mp h with rfl | h'
    · exact ⟨rfl, rfl⟩
    · exact posParams_flags num_required pf kf rest (start + 1) p h'

theorem kwonlyParamsOf_flags :
    ∀ (as : List Arg) (ds : List (Option Expr)) (p : Parameter),
      p ∈ kwonlyParamsOf as ds → p.positional = false ∧ p.keyword = true
  | a :: as, d :: ds, p, h => by
    rcases List.mem_cons.mp h with rfl | h'
    · exact ⟨rfl, rfl⟩
    · exact kwonlyParamsOf_flags as ds p h'
  | [], _, p, h => absurd h (List.not_mem_nil p)
  | _ :: _, [], p, h => absurd h (List.not_mem_nil p)

/-- C7: every parameter of every signature the classifier produces carries
one of the three legal kind combinations — positional-only (true, false),
positional-or-keyword (true, true), keyword-only (false, true); the
combination (false, false) never occurs. -/
theorem classifier_param_kinds (f : FunctionDef) (sig : Parameters)
    (h : function_def_to_parameters f = some sig) (p : Parameter)
    (hp : p ∈ sig.parameters) :
    (p.positional = true ∧ p.keyword = false) ∨
      (p.positional = true ∧ p.keyword = true) ∨
      (p.positional = false ∧ p.keyword = true) := by
  obtain ⟨_, _, hparams⟩ := function_def_to_parameters_some h
  rw [hparams] at hp
  rcases List.mem_append.mp hp with hp1 | hp3
  · rcases List.mem_append.mp hp1 with hpA | hpB
    · exact .inl (posParams_flags _ true false _ _ p hpA)
    · exact .inr (.inl (posParams_flags _ true true _ _ p hpB))
  · exact .inr (.inr (kwonlyParamsOf_flags _ _ p hp3))

/-- C8: the classifier produces no signature exactly when the raw input is
malformed: the defaults outnumber the positional parameters (the first
assertion of the source) or the keyword-only list and its default-slot list
have different lengths (the second assertion).  Conversely, under the
well-formedness guarantees of a syntactically valid callable definition
(defaults no longer than the positional lists, keyword-only lists parallel)
neither failure branch is reachable and a signature is always produced. -/
theorem classifier_fails_iff (f : FunctionDef) :
    function_def_to_parameters f = none ↔
      ((FunctionDef.args f).posonlyargs.length + (FunctionDef.args f).args.length
          < (FunctionDef.args f).defaults.length
        ∨ (FunctionDef.args f).kwonlyargs.length ≠ (FunctionDef.args f).kw_defaults.length) := by
  simp only [function_def_to_parameters]
  split
  · next hlt => simp [hlt]
  · next hge =>
    split
    · next heq => simp [heq, hge]
    · next hne => simp [hne]

end Api

namespace Api

/-- Witness for C3 at `def f(a, b=1, *, c, d=2)`: two positional parameters,
one default, so `a` (index 0) is required and `b` (index 1) is optional;
here we check index 1. -/
theorem classifier_positional_required_split_witness :
    Parameter.positional (⟨"b", true, true, false, 1, none⟩ : Parameter) = true ∧
      Parameter.required (⟨"b", true, true, false, 1, none⟩ : Parameter)
        = decide (1 < (FunctionDef.args exFDef).posonlyargs.length
            + (FunctionDef.args exFDef).args.length
            - (FunctionDef.args exFDef).defaults.length) :=
  classifier_positional_required_split exFDef
    { parameters := [⟨"a", true, true, true, 1, none⟩, ⟨"b", true, true, false, 1, none⟩,
                     ⟨"c", false, true, true, 1, none⟩, ⟨"d", false, true, false, 1, none⟩],
      variadic_args := false, variadic_kwargs := false, line := 1 }
    (by rfl) 1 ⟨"b", true, true, false, 1, none⟩ (by decide) (by rfl)

/-- Witness for C4 at `def f(a, b=1, *, c, d=2)`: the keyword-only parameter
`c` (index 0) has an absent default slot and comes out required. -/
theorem classifier_kwonly_required_witness :
    ∃ p d,
      (Parameters.parameters
        { parameters := [⟨"a", true, true, true, 1, none⟩, ⟨"b", true, true, false, 1, none⟩,
                         ⟨"c", false, true, true, 1, none⟩, ⟨"d", false, true, false, 1, none⟩],
          variadic_args := false, variadic_kwargs := false, line := 1 })[
        (FunctionDef.args exFDef).posonlyargs.length
          + (FunctionDef.args exFDef).args.length + 0]? = some p ∧
      (FunctionDef.args exFDef).kw_defaults[0]? = some d ∧
      Parameter.positional p = false ∧ Parameter.keyword p = true ∧
      Parameter.required p = d.isNone :=
  classifier_kwonly_required exFDef
    { parameters := [⟨"a", true, true, true, 1, none⟩, ⟨"b", true, true, false, 1, none⟩,
                     ⟨"c", false, true, true, 1, none⟩, ⟨"d", false, true, false, 1, none⟩],
      variadic_args := false, variadic_kwargs := false, line := 1 }
    (by rfl) 0 (by decide)

/-- Witness for C7 at `def f(a, b=1, *, c, d=2)`: the parameter `a` of the
resulting signature carries one of the three legal kind combinations. -/
theorem classifier_param_kinds_witness :
    (Parameter.positional (⟨"a", true, true, true, 1, none⟩ : Parameter) = true ∧
        Parameter.keyword (⟨"a", true, true, true, 1, none⟩ : Parameter) = false) ∨
      (Parameter.positional (⟨"a", true, true, true, 1, none⟩ : Parameter) = true ∧
        Parameter.keyword (⟨"a", true, true, true, 1, none⟩ : Parameter) = true) ∨
      (Parameter.positional (⟨"a", true, true, true, 1, none⟩ : Parameter) = false ∧
        Parameter.keyword (⟨"a", true, true, true, 1, none⟩ : Parameter) = true) :=
  classifier_param_kinds exFDef
    { parameters := [⟨"a", true, true, true, 1, none⟩, ⟨"b", true, true, false, 1, none⟩,
                     ⟨"c", false, true, true, 1, none⟩, ⟨"d", false, true, false, 1, none⟩],
      variadic_args := false, variadic_kwargs := false, line := 1 }
    (by rfl) ⟨"a", true, true, true, 1, none⟩ (by decide)

end Api
